import Mathlib

/-!
# Verification of the SmartCutElf highlight-detection core

A shallow embedding, over `ℚ`, of the scoring, selection, cutting and
workflow logic of the SmartCutElf video editor
(`src/core/audio_analyzer.py`, `src/core/video_analyzer.py`,
`src/core/highlight_detector.py`, `src/core/video_processor.py`,
`src/core/workflow.py`), together with proofs and refutations of the
spec's testable properties.

Floating-point literals of the source (`0.4`, `0.8`, `1.2`, ...) are
embedded as the corresponding rationals.  External decoding results
(PCM samples, grayscale frames, ffmpeg exit codes) are inputs of the
embedded functions.  `numpy.sqrt` is abstracted by a function
parameter `sqrtA : ℚ → ℚ`; every theorem that needs it assumes only
that it preserves nonnegativity.
-/

namespace SmartCut

/-- Arithmetic mean of a list, as computed by `numpy.mean`
(division by zero yields 0 in `ℚ`, matching the guarded call sites). -/
def mean (l : List ℚ) : ℚ := l.sum / l.length

/-- Population variance of a list, as computed by `numpy.var`. -/
def variance (l : List ℚ) : ℚ :=
  (l.map (fun e => (e - mean l) ^ 2)).sum / l.length

/-- Maximum of a list (`numpy.max`); 0 on the empty list, which every
call site guards against. -/
def maxD : List ℚ → ℚ
  | [] => 0
  | a :: t => t.foldl max a

/-- Number of consecutive pairs of a list satisfying `p` (the
`for i in range(1, len(xs)): if p(xs[i-1], xs[i])` counting loops). -/
def countPairs (p : ℚ → ℚ → Bool) : List ℚ → Nat
  | a :: b :: t => (if p a b then 1 else 0) + countPairs p (b :: t)
  | _ => 0

/-- Fuel-driven worker for `chunkList`; each step consumes at least
one element when `0 < ws`, so fuel `l.length` is always enough. -/
def chunkListAux (ws : Nat) : Nat → List ℚ → List (List ℚ)
  | 0, _ => []
  | _, [] => []
  | fuel + 1, a :: l => (a :: l).take ws :: chunkListAux ws fuel ((a :: l).drop ws)

/-- Split a list into chunks of `ws` elements
(`for i in range(0, len(l), ws): l[i:i+ws]`); empty when `ws = 0`
(Python raises `ValueError` there, and all call sites catch it). -/
def chunkList (ws : Nat) (l : List ℚ) : List (List ℚ) :=
  if ws = 0 then [] else chunkListAux ws l.length l

/-- Truncation of a nonnegative rational to an integer sample/frame
index, as Python's `int()` does for the nonnegative values that occur. -/
def ratIdx (q : ℚ) : Nat := ⌊q⌋.toNat

/-! ## AudioAnalyzer (src/core/audio_analyzer.py) -/

/-- Decoded audio input: either an unreadable file (`wavfile.read`
raises) or a sample rate with normalized mono samples. -/
inductive AudioInput
  | unreadable (msg : String)
  | audio (sampleRate : Nat) (samples : List ℚ)

/-- `AudioAnalyzer.load_audio`: returns the decoded data or raises. -/
def load_audio : AudioInput → Except String (Nat × List ℚ)
  | .unreadable m => .error m
  | .audio sr s => .ok (sr, s)

/-- Core of `AudioAnalyzer.calculate_audio_score` once the per-window
RMS energies are known: composite of average energy, variance and
change count, clamped to 1.0. -/
def audio_score_core (energies : List ℚ) : ℚ :=
  if energies.isEmpty then 0
  else
    let avg := mean energies
    let v := variance energies
    let changes := countPairs (fun a b => decide ((1:ℚ)/10 < |b - a|)) energies
    let change_score := min ((changes : ℚ) / 10) 1
    min (avg * (3/10) + v * 2 * (3/10) + change_score * (2/5)) 1

/-- `AudioAnalyzer.calculate_audio_score`: extracts the
`[start_time, end_time)` sample window, computes RMS energies over
0.5 s sub-windows and the composite score; any decode error, empty
window or empty energy list yields 0.0 (the `except` handler and the
explicit guards). -/
def calculate_audio_score (sqrtA : ℚ → ℚ) (inp : AudioInput)
    (start_time end_time : ℚ) : ℚ :=
  match load_audio inp with
  | .error _ => 0
  | .ok (sr, data) =>
    let startS := ratIdx (start_time * sr)
    let endS := ratIdx (end_time * sr)
    let seg := (data.drop startS).take (endS - startS)
    if seg.isEmpty then 0
    else
      let ws := ratIdx ((1/2 : ℚ) * sr)
      if ws = 0 then 0
      else
        audio_score_core
          ((chunkList ws seg).map fun w => sqrtA (mean (w.map fun x => x * x)))

/-! ## VideoAnalyzer (src/core/video_analyzer.py) -/

/-- Decoded video stream: fps and frame count as reported by OpenCV,
and the grayscale pixel rows of each frame. -/
structure VideoData where
  fps : ℚ
  totalFrames : Nat
  frame : Nat → List ℚ

/-- Video input: an unopenable path (`cap.isOpened()` false) or a
decodable stream. -/
inductive VideoInput
  | unopenable
  | video (d : VideoData)

/-- Mean absolute difference of two equally sized grayscale frames
(`np.mean(cv2.absdiff(a, b))`). -/
def absdiffMean (f g : List ℚ) : ℚ :=
  mean ((List.zip f g).map fun p => |p.1 - p.2|)

/-- Core of `VideoAnalyzer.calculate_video_score` once the per-sample
motion readings are known: normalized average, variance, maximum and
change-frequency terms, clamped to 1.0; 0.0 on an empty motion
list. -/
def video_score_core (motions : List ℚ) : ℚ :=
  if motions.isEmpty then 0
  else
    let avg := mean motions
    let navg := min (avg * 5) 1
    let nvar := min (variance motions * 20) 1
    let nmax := min (maxD motions * 3) 1
    let thr := max ((1:ℚ)/100) (avg * (3/10))
    let changes := countPairs (fun a b => decide (thr < |b - a|)) motions
    let change_score :=
      min ((changes : ℚ) / max (motions.length : ℚ) 1 * 2) 1
    min (navg * (3/10) + nvar * (3/10) + nmax * (1/5) + change_score * (1/5)) 1

/-- `VideoAnalyzer.calculate_video_score`: samples grayscale frames at
`max(1, fps/10)` intervals over the clamped frame range, scores the
consecutive-frame motion readings, and returns 0.0 on an unopenable
file, a degenerate frame range or an empty motion list. -/
def calculate_video_score (inp : VideoInput)
    (start_time end_time : ℚ) : ℚ :=
  match inp with
  | .unopenable => 0
  | .video d =>
    let fps := if d.fps ≤ 0 then 25 else d.fps
    let startF := ratIdx (start_time * fps)
    let endF0 := ratIdx (end_time * fps)
    let endF := if 0 < d.totalFrames then min endF0 (d.totalFrames - 1) else endF0
    if endF ≤ startF then 0
    else
      let interval := max 1 (ratIdx (fps / 10))
      let sampledIdx :=
        if d.totalFrames = 0 then []
        else ((List.range (endF - startF)).filter
          (fun k => k % interval = 0)).map (startF + ·)
      video_score_core ((sampledIdx.zip sampledIdx.tail).map
        fun p => absdiffMean (d.frame p.1) (d.frame p.2) / 255)

/-! ## HighlightDetector (src/core/highlight_detector.py) -/

/-- The per-window analysis record built by
`HighlightDetector.analyze_video`. -/
structure Segment where
  index : Nat
  start_time : ℚ
  end_time : ℚ
  duration : ℚ
  score : ℚ
deriving DecidableEq, Repr

/-- Total duration of a selection (`sum(s['duration'] for s in l)`). -/
def totalDur (l : List Segment) : ℚ := (l.map Segment.duration).sum

/-- The comparison of `sorted(key=lambda x: x['score'], reverse=True)`:
`a` may come before `b` iff its score is at least `b`'s. -/
def scoreGE (a b : Segment) : Prop := b.score ≤ a.score

instance : DecidableRel scoreGE := fun a b => inferInstanceAs (Decidable (_ ≤ _))

instance : IsTotal Segment scoreGE := ⟨fun a b => le_total b.score a.score⟩

instance : IsTrans Segment scoreGE := ⟨fun _ _ _ h1 h2 => le_trans h2 h1⟩

/-- The comparison of `sorted(key=lambda x: x['start_time'])`. -/
def startLE (a b : Segment) : Prop := a.start_time ≤ b.start_time

instance : DecidableRel startLE := fun a b => inferInstanceAs (Decidable (_ ≤ _))

instance : IsTotal Segment startLE := ⟨fun a b => le_total a.start_time b.start_time⟩

instance : IsTrans Segment startLE := ⟨fun _ _ _ h1 h2 => le_trans h1 h2⟩

/-- `sorted(key=lambda x: x['score'], reverse=True)` — a stable
descending sort by score (Python's sort is stable, and stable sorts
of a list under a fixed comparison agree, so insertion sort models
it exactly). -/
def sortByScoreDesc (l : List Segment) : List Segment :=
  l.insertionSort scoreGE

/-- `sorted(key=lambda x: x['start_time'])` — a stable ascending sort
by start time. -/
def sortByStart (l : List Segment) : List Segment :=
  l.insertionSort startLE

/-- `HighlightDetector.calculate_segment_score`: weighted sum of the
audio score, the video score and the triangular temporal-position
score, clamped to 1.0. -/
def calculate_segment_score (audio_weight video_weight time_weight : ℚ)
    (sqrtA : ℚ → ℚ) (ainp : AudioInput) (vinp : VideoInput)
    (start_time end_time total_duration : ℚ) : ℚ :=
  let audio_score := calculate_audio_score sqrtA ainp start_time end_time
  let video_score := calculate_video_score vinp start_time end_time
  let time_position := (start_time + end_time) / 2
  let normalized_position :=
    if 0 < total_duration then time_position / total_duration else 1/2
  let time_score := 1 - |normalized_position - 1/2| * 2
  min (audio_score * audio_weight + video_score * video_weight +
        time_score * time_weight) 1

/-- The fixed-window partition built by the loop of
`HighlightDetector.analyze_video` (before sorting): window `i` covers
`[i*W, min((i+1)*W, D))`.  The scoring of a window is abstracted by
`score`. -/
def analyze_segments (D W : ℚ) (score : ℚ → ℚ → ℚ) : List Segment :=
  (List.range (⌈D / W⌉.toNat)).map fun (i : Nat) =>
    let s : ℚ := (i : ℚ) * W
    let e : ℚ := min ((i + 1 : ℚ) * W) D
    { index := i, start_time := s, end_time := e,
      duration := e - s, score := score s e }

/-- `HighlightDetector.analyze_video`: the fixed-window partition,
sorted by score descending. -/
def analyze_video (D W : ℚ) (score : ℚ → ℚ → ℚ) : List Segment :=
  sortByScoreDesc (analyze_segments D W score)

/-- First greedy pass of `HighlightDetector.select_highlights`: walk
the score-sorted candidates, accept while the running total stays at
most `maxT`, and break as soon as the running total reaches `minT`
(the break test runs whether or not the candidate was accepted).
Returns the accepted list and the final running total. -/
def firstPass (maxT minT : ℚ) : List Segment → ℚ → List Segment × ℚ
  | [], cur => ([], cur)
  | s :: rest, cur =>
    if cur + s.duration ≤ maxT then
      let cur' := cur + s.duration
      if minT ≤ cur' then ([s], cur')
      else
        let r := firstPass maxT minT rest cur'
        (s :: r.1, r.2)
    else
      if minT ≤ cur then ([], cur)
      else firstPass maxT minT rest cur

/-- Second pass of `select_highlights` over the not-yet-selected
candidates; here the break test is inside the acceptance branch. -/
def secondPass (maxT minT : ℚ) : List Segment → ℚ → List Segment × ℚ
  | [], cur => ([], cur)
  | s :: rest, cur =>
    if cur + s.duration ≤ maxT then
      let cur' := cur + s.duration
      if minT ≤ cur' then ([s], cur')
      else
        let r := secondPass maxT minT rest cur'
        (s :: r.1, r.2)
    else secondPass maxT minT rest cur

/-- One merge step of `_merge_adjacent_segments`: the copied current
segment absorbs the next one, keeping its own `start_time` and
`index`, taking the span as the new duration and averaging the two
scores. -/
def mergedSeg (cur nxt : Segment) : Segment :=
  { cur with end_time := nxt.end_time,
             duration := nxt.end_time - cur.start_time,
             score := (cur.score + nxt.score) / 2 }

/-- Inner `while` of `_merge_adjacent_segments`: keep absorbing the
following segment while the gap is at most 2 s and the accumulated
duration would stay at most `1.2 × target`. -/
def mergeInner (curTotal target : ℚ) :
    Segment → List Segment → Segment × List Segment
  | cur, [] => (cur, [])
  | cur, nxt :: rest =>
    if nxt.start_time - cur.end_time ≤ 2 then
      if curTotal + (nxt.end_time - cur.start_time) ≤ target * (6/5) then
        mergeInner curTotal target (mergedSeg cur nxt) rest
      else (cur, nxt :: rest)
    else (cur, nxt :: rest)

theorem mergeInner_rest_length (curTotal target : ℚ) :
    ∀ (cur : Segment) (l : List Segment),
      (mergeInner curTotal target cur l).2.length ≤ l.length := by
  intro cur l
  induction l generalizing cur with
  | nil => simp [mergeInner]
  | cons nxt rest ih =>
    simp only [mergeInner]
    split
    · split
      · exact le_trans (ih _) (Nat.le_succ _)
      · simp
    · simp

/-- Outer `while` of `_merge_adjacent_segments`, fuel-driven: process
the start-sorted segments while the accumulated duration is below the
target.  Each iteration consumes at least the head segment
(`mergeInner` only ever shortens the rest, by
`mergeInner_rest_length`), so fuel `l.length` is always enough. -/
def mergeLoop (target : ℚ) : Nat → List Segment → ℚ → List Segment
  | 0, _, _ => []
  | _, [], _ => []
  | fuel + 1, s :: rest, curTotal =>
    if curTotal < target then
      let m := mergeInner curTotal target s rest
      m.1 :: mergeLoop target fuel m.2 (curTotal + m.1.duration)
    else []

/-- The fuel of `mergeLoop` is irrelevant as long as it covers the
list length: the worker is a faithful model of the source's `while`
loop. -/
theorem mergeLoop_fuel_congr (target : ℚ) :
    ∀ (f1 f2 : Nat) (l : List Segment) (c : ℚ), l.length ≤ f1 →
      l.length ≤ f2 → mergeLoop target f1 l c = mergeLoop target f2 l c := by
  intro f1
  induction f1 using Nat.strong_induction_on with
  | _ f1 ih =>
    intro f2 l c h1 h2
    cases l with
    | nil => cases f1 <;> cases f2 <;> rfl
    | cons s rest =>
      cases f1 with
      | zero => simp only [List.length_cons] at h1; omega
      | succ g1 =>
        cases f2 with
        | zero => simp only [List.length_cons] at h2; omega
        | succ g2 =>
          simp only [mergeLoop]
          split
          · have hlen := mergeInner_rest_length c target s rest
            simp only [List.length_cons] at h1 h2
            rw [ih g1 (Nat.lt_succ_self _) g2 _ _ (by omega) (by omega)]
          · rfl

/-- `HighlightDetector._merge_adjacent_segments`. -/
def merge_adjacent_segments (segments : List Segment) (target : ℚ) :
    List Segment :=
  if segments.length ≤ 1 then segments
  else mergeLoop target (sortByStart segments).length (sortByStart segments) 0

/-- The candidate filter at the top of `select_highlights`: segments of
at least the minimum duration, relaxed to 3 s and then to everything
when the filter comes back empty. -/
def validSegments (segments : List Segment) (min_segment_duration : ℚ) :
    List Segment :=
  let valid := segments.filter (fun s => decide (min_segment_duration ≤ s.duration))
  if valid.isEmpty then
    let v2 := segments.filter (fun s => decide ((3:ℚ) ≤ s.duration))
    if v2.isEmpty then segments else v2
  else valid

/-- `HighlightDetector.select_highlights`: filter, sort by score, two
greedy passes, optional adjacent merge, and a final sort by start
time. -/
def select_highlights (segments : List Segment) (target_duration : ℚ)
    (min_segment_duration : ℚ) : List Segment :=
  if segments.isEmpty then []
  else
    let sorted := sortByScoreDesc (validSegments segments min_segment_duration)
    let minT := target_duration * (4/5)
    let maxT := target_duration * (6/5)
    let p1 := firstPass maxT minT sorted 0
    let p2 :=
      if p1.2 < minT then
        let idxs := p1.1.map Segment.index
        let remaining := sorted.filter (fun s => ¬ idxs.contains s.index)
        let ext := secondPass maxT minT remaining p1.2
        (p1.1 ++ ext.1, ext.2)
      else p1
    let sel3 :=
      if p2.2 < minT ∧ 0 < p2.1.length then
        merge_adjacent_segments p2.1 target_duration
      else p2.1
    sortByStart sel3

/-- `HighlightDetector._adjust_target_duration`: shrink the target
window for small or short inputs, floored at 60 s, with the floor cut
back to `0.8 × max` when it overshoots the shrunken maximum. -/
def adjust_target_duration (original_duration file_size_mb
    target_min target_max : ℚ) : ℚ × ℚ :=
  if file_size_mb < 100 ∨ original_duration < 300 then
    let ratio_min : ℚ := if 200 < original_duration then 1/2 else 3/5
    let ratio_max : ℚ := if 200 < original_duration then 4/5 else 9/10
    let adjusted_min := max 60 (original_duration * ratio_min)
    let adjusted_max := min target_max (original_duration * ratio_max)
    if adjusted_max < adjusted_min then (adjusted_max * (4/5), adjusted_max)
    else (adjusted_min, adjusted_max)
  else (target_min, target_max)

/-! ## VideoProcessor (src/core/video_processor.py) -/

/-- The ffmpeg argument list built by `VideoProcessor._concat_videos`
for a given `reencode` flag: demuxer concat with re-encoding when
`true`, with stream copy when `false`. -/
def concatCmdArgs (ffmpeg concatFile out : String) (reencode : Bool) :
    List String :=
  if reencode then
    [ffmpeg, "-f", "concat", "-safe", "0", "-i", concatFile,
     "-c:v", "libx264", "-preset", "fast", "-crf", "23",
     "-c:a", "aac", "-b:a", "192k", "-movflags", "+faststart", "-y", out]
  else
    [ffmpeg, "-f", "concat", "-safe", "0", "-i", concatFile,
     "-c", "copy", "-y", out]

/-- The concat invocation made by `VideoProcessor.cut_video` when it
has two or more successful segment files
(`self._concat_videos(segment_files, output_path)` at
video_processor.py:434): the `reencode` parameter is omitted and
defaults to `False`. -/
def cutVideoConcatCmd (ffmpeg concatFile out : String) : List String :=
  concatCmdArgs ffmpeg concatFile out false

/-- Outcome of the per-segment cutting block of
`VideoProcessor.cut_video`, covering every `continue` site of the
loop: the primary encode, the stream-copy backup, the file checks and
the rename. -/
inductive SegOutcome
  | success
  | timeout
  | backupSuccess
  | bothFailed (e : String)
  | backupTimeout
  | fileNotCreated
  | emptyFile
  | renameFailed (e : String)

/-- Whether the segment ends up in `segment_files`. -/
def SegOutcome.isSuccess : SegOutcome → Bool
  | .success => true
  | .backupSuccess => true
  | _ => false

/-- The error string recorded in `failed_segments` for a failed
outcome. -/
def SegOutcome.errorMsg : SegOutcome → String
  | .timeout => "Timeout"
  | .backupTimeout => "Timeout"
  | .bothFailed e => e
  | .fileNotCreated => "File not created"
  | .emptyFile => "Empty file"
  | .renameFailed e => "Rename failed: " ++ e
  | _ => ""

/-- One entry of the `failed_segments` list. -/
structure CutFail where
  index : Nat
  startT : ℚ
  endT : ℚ
  error : String
deriving DecidableEq, Repr

/-- Environment of one `cut_video` call: the behaviour of the external
encoder and filesystem, given as inputs of the embedding. -/
structure CutEnv where
  ffmpegOk : Bool
  seg : Nat → SegOutcome
  concatOk : Bool
  moveOk : Bool
  outputExists : Bool

/-- The segment loop of `cut_video` over the index-annotated ranges:
collects `failed_segments` and the original indices of the successful
segment files, in order; a failed or timed-out segment is recorded and
the loop continues with the next one. -/
def cutLoop (outcome : Nat → SegOutcome) :
    List (Nat × ℚ × ℚ) → List CutFail × List Nat
  | [] => ([], [])
  | (i, s, e) :: rest =>
    let r := cutLoop outcome rest
    if (outcome i).isSuccess then (r.1, i :: r.2)
    else ({ index := i, startT := s, endT := e,
            error := (outcome i).errorMsg } :: r.1, r.2)

/-- `VideoProcessor.cut_video` at the success/failure level: empty
segment list, unavailable encoder or an invalid time range fail up
front; otherwise the loop runs over every segment, and the call fails
iff no segment succeeded or the final move/concat/output check
failed. -/
def cut_video (env : CutEnv) (segments : List (ℚ × ℚ)) : Bool :=
  if segments.isEmpty then false
  else if ¬ env.ffmpegOk then false
  else if segments.any (fun r => decide (r.1 < 0) || decide (r.2 ≤ r.1)) then false
  else
    let r := cutLoop env.seg segments.enum
    if r.2.isEmpty then false
    else if r.2.length = 1 then env.moveOk && env.outputExists
    else env.concatOk && env.outputExists

/-! ## Workflow (src/core/workflow.py) -/

/-- A value of the string-keyed result dictionaries built by
`VideoProcessingWorkflow.process_video`. -/
inductive RVal
  | b (v : Bool)
  | s (v : String)
  | q (v : ℚ)
  | n (v : Nat)
  | segs (v : List Segment)
  | nil
deriving DecidableEq, Repr

/-- A Python result dictionary, as an association list. -/
abbrev RMap := List (String × RVal)

/-- Dictionary lookup. -/
def lookupR (m : RMap) (k : String) : Option RVal := m.lookup k

/-- Outcome of `VideoProcessor.get_video_info` as observed by
`process_video`: `FileNotFoundError`, another exception, a `None`
result, or a usable info dictionary. -/
inductive ProbeOutcome
  | fileNotFound
  | raised (msg : String)
  | noInfo
  | ok

/-- Environment of one `process_video` call: outcomes of the external
stages, given as inputs of the embedding. -/
structure WfEnv where
  fileValid : Bool
  fileError : String
  probe : ProbeOutcome
  detectOk : Bool
  detectError : String
  cutOk : Bool
  orientation : String
  resizeOk : Bool
  subtitleEnabled : Bool
  subtitleGenerated : Bool
  processingTime : ℚ
  highlights : List Segment
  highlightTotal : ℚ
  highlightCount : Nat

/-- `VideoProcessingWorkflow.process_video`: validate, probe, detect,
cut, resize/rename, subtitles, then assemble the result dictionary;
every failing stage returns a `success: false` dictionary with an
error message and the input path. -/
def process_video (env : WfEnv) (video_path output_path : String) : RMap :=
  if ¬ env.fileValid then
    [("success", .b false), ("error", .s ("文件验证失败: " ++ env.fileError)),
     ("input_path", .s video_path)]
  else
    match env.probe with
    | .fileNotFound =>
      [("success", .b false),
       ("error", .s "FFmpeg未安装或不在系统PATH中，请先安装FFmpeg"),
       ("input_path", .s video_path)]
    | .raised m =>
      [("success", .b false), ("error", .s ("读取视频信息失败: " ++ m)),
       ("input_path", .s video_path)]
    | .noInfo =>
      [("success", .b false), ("error", .s "无法获取视频信息"),
       ("input_path", .s video_path)]
    | .ok =>
      if ¬ env.detectOk then
        [("success", .b false), ("error", .s env.detectError),
         ("input_path", .s video_path)]
      else if ¬ env.cutOk then
        [("success", .b false), ("error", .s "视频剪辑失败"),
         ("input_path", .s video_path)]
      else if ¬ (if env.orientation = "landscape" ∨ env.orientation = "portrait"
                 then env.resizeOk else true) then
        [("success", .b false), ("error", .s "视频画面调整失败"),
         ("input_path", .s video_path)]
      else
        [("success", .b true), ("input_path", .s video_path),
         ("output_path", .s output_path),
         ("subtitle_path",
           if env.subtitleEnabled ∧ env.subtitleGenerated then
             RVal.s (output_path ++ ".srt")
           else RVal.nil),
         ("processing_time", .q env.processingTime),
         ("highlights", .segs env.highlights),
         ("total_duration", .q env.highlightTotal),
         ("segment_count", .n env.highlightCount)]

/-! ## Theorems -/

/-- C2, counterexample: the concat command actually issued by
`cut_video` is the stream-copy variant — it contains `-c copy` and no
`libx264` re-encode arguments, contradicting the claim that the
cutting pipeline always concatenates in re-encode mode. -/
theorem C2_counterexample :
    (cutVideoConcatCmd "ffmpeg" "concat_list.txt" "out.mp4").contains "copy"
      = true ∧
    (cutVideoConcatCmd "ffmpeg" "concat_list.txt" "out.mp4").contains "libx264"
      = false := by
  constructor <;> rfl

/-- C2, amended: whenever `cut_video` has two or more successful
segment files, the concatenation command it builds is the
demuxer-level stream-copy command (`-f concat` + `-c copy`), because
the call at video_processor.py:434 leaves `reencode` at its default
`False`; it is never the re-encode command. -/
theorem C2_cut_concat_stream_copy (f c o : String) :
    cutVideoConcatCmd f c o =
      [f, "-f", "concat", "-safe", "0", "-i", c, "-c", "copy", "-y", o] ∧
    cutVideoConcatCmd f c o ≠ concatCmdArgs f c o true := by
  refine ⟨rfl, fun h => ?_⟩
  have := congrArg List.length h
  simp [cutVideoConcatCmd, concatCmdArgs] at this

/-- C6, counterexample: merging the adjacent segments
`[0,5)` (score 0.4) and `[7,12)` (score 0.8) with target 20 yields a
single segment of duration 12 — the span including the 2 s gap — not
the sum `5 + 5` of the constituents' durations. -/
theorem C6_counterexample :
    merge_adjacent_segments
      [⟨0, 0, 5, 5, 2/5⟩, ⟨1, 7, 12, 5, 4/5⟩] 20 =
      [⟨0, 0, 12, 12, 3/5⟩] ∧
    (⟨0, 0, 12, 12, 3/5⟩ : Segment).duration ≠ (5 : ℚ) + 5 := by
  constructor
  · norm_num [merge_adjacent_segments, sortByStart, List.insertionSort,
      List.orderedInsert, startLE, mergeLoop, mergeInner, mergedSeg]
  · intro h
    norm_num at h

/-- C6, amended: merging two adjacent segments (gap at most 2 s,
within the `1.2 × target` budget) produces a new `Segment` value —
the first constituent's copy, with its `index` and `start_time`
kept — whose score is the pairwise average of the constituents'
scores and whose duration is the span from the first constituent's
start to the second's end, i.e. the sum of the durations plus the
inter-segment gap. -/
theorem C6_merge_span (s1 s2 : Segment) (t : ℚ)
    (hd1 : s1.duration = s1.end_time - s1.start_time)
    (hd2 : s2.duration = s2.end_time - s2.start_time)
    (hord : s1.start_time ≤ s2.start_time)
    (hgap : s2.start_time - s1.end_time ≤ 2)
    (hfit : s2.end_time - s1.start_time ≤ t * (6/5))
    (ht : 0 < t) :
    merge_adjacent_segments [s1, s2] t = [mergedSeg s1 s2] ∧
    (mergedSeg s1 s2).score = (s1.score + s2.score) / 2 ∧
    (mergedSeg s1 s2).duration =
      s1.duration + s2.duration + (s2.start_time - s1.end_time) ∧
    (mergedSeg s1 s2).index = s1.index ∧
    (mergedSeg s1 s2).start_time = s1.start_time ∧
    (mergedSeg s1 s2).end_time = s2.end_time := by
  have hsort : sortByStart [s1, s2] = [s1, s2] := by
    apply List.Sorted.insertionSort_eq
    simp [List.sorted_cons, startLE, hord]
  refine ⟨?_, rfl, ?_, rfl, rfl, rfl⟩
  · unfold merge_adjacent_segments
    rw [if_neg (by simp)]
    rw [hsort]
    show mergeLoop t 2 [s1, s2] 0 = [mergedSeg s1 s2]
    unfold mergeLoop
    rw [if_pos ht]
    unfold mergeInner
    rw [if_pos hgap, if_pos (by linarith)]
    rfl
  · simp only [mergedSeg, hd1, hd2]
    ring

/-- C7, counterexample: for a 40 s small-file input with nominal
target 180–300 s, `_adjust_target_duration` returns
`(28.8, 36)` — the 60 s floor is cut back to `0.8 × 36` — whereas the
claim announces a window of roughly `[20, 32]` s; even the upper end
36 exceeds that window. -/
theorem C7_counterexample :
    adjust_target_duration 40 50 180 300 = (144/5, 36) ∧
    ¬ ((adjust_target_duration 40 50 180 300).2 ≤ 32) := by
  have h : adjust_target_duration 40 50 180 300 = (144/5, 36) := by
    unfold adjust_target_duration
    norm_num
  refine ⟨h, fun hle => ?_⟩
  rw [h] at hle
  norm_num at hle

/-- C7, amended: for small or short inputs (size < 100 MB or duration
< 300 s) the target window shrinks to 50–80 % of the source duration
when duration > 200 s and 60–90 % otherwise; the minimum is floored
at 60 s except when the floor would exceed the shrunken maximum, in
which case the minimum is cut back to `0.8 ×` the maximum — in
particular a 40 s small-file input with nominal target 180–300 s gets
the window `(28.8, 36)`, not roughly `[20, 32]`. -/
theorem C7_adjust_target_shrinks (d sz tmin tmax : ℚ)
    (hd : 0 ≤ d) (htm : 0 ≤ tmax) (hsmall : sz < 100 ∨ d < 300) :
    adjust_target_duration 40 50 180 300 = (144/5, 36) ∧
    (adjust_target_duration d sz tmin tmax).1 ≤
      (adjust_target_duration d sz tmin tmax).2 ∧
    (adjust_target_duration d sz tmin tmax).2 ≤ tmax ∧
    (200 < d → (adjust_target_duration d sz tmin tmax).2 ≤ d * (4/5)) ∧
    (d ≤ 200 → (adjust_target_duration d sz tmin tmax).2 ≤ d * (9/10)) ∧
    (60 ≤ (adjust_target_duration d sz tmin tmax).1 ∨
      (adjust_target_duration d sz tmin tmax).1 =
        (adjust_target_duration d sz tmin tmax).2 * (4/5)) := by
  refine ⟨by unfold adjust_target_duration; norm_num, ?_⟩
  unfold adjust_target_duration
  rw [if_pos hsmall]
  by_cases h200 : 200 < d
  · rw [if_pos h200, if_pos h200]
    by_cases hlt : min tmax (d * (4/5)) < max 60 (d * (1/2))
    · rw [if_pos hlt]
      have hmx : (0:ℚ) ≤ min tmax (d * (4/5)) := le_min htm (by linarith)
      refine ⟨by linarith, min_le_left _ _, fun _ => min_le_right _ _,
        fun hle => absurd h200 (not_lt.mpr hle), Or.inr rfl⟩
    · rw [if_neg hlt]
      push_neg at hlt
      refine ⟨hlt, min_le_left _ _, fun _ => min_le_right _ _,
        fun hle => absurd h200 (not_lt.mpr hle), Or.inl (le_max_left _ _)⟩
  · rw [if_neg h200, if_neg h200]
    by_cases hlt : min tmax (d * (9/10)) < max 60 (d * (3/5))
    · rw [if_pos hlt]
      have hmx : (0:ℚ) ≤ min tmax (d * (9/10)) := le_min htm (by linarith)
      refine ⟨by linarith, min_le_left _ _,
        fun h => absurd h h200, fun _ => min_le_right _ _, Or.inr rfl⟩
    · rw [if_neg hlt]
      push_neg at hlt
      refine ⟨hlt, min_le_left _ _,
        fun h => absurd h h200, fun _ => min_le_right _ _,
        Or.inl (le_max_left _ _)⟩

/-- C7, witness for the amended theorem at the 40 s small-file
input. -/
theorem C7_adjust_target_shrinks_witness :
    ((0:ℚ) ≤ 40 ∧ (0:ℚ) ≤ 300 ∧ ((50:ℚ) < 100 ∨ (40:ℚ) < 300)) ∧
    (adjust_target_duration 40 50 180 300).1 ≤
      (adjust_target_duration 40 50 180 300).2 :=
  ⟨⟨by norm_num, by norm_num, Or.inl (by norm_num)⟩,
    (C7_adjust_target_shrinks 40 50 180 300 (by norm_num) (by norm_num)
      (Or.inl (by norm_num))).2.1⟩

/-- C6, witness for the amended merge theorem at two concrete
segments with a 2 s gap. -/
theorem C6_merge_span_witness :
    merge_adjacent_segments [⟨0, 0, 5, 5, 2/5⟩, ⟨1, 7, 12, 5, 4/5⟩] 20 =
      [mergedSeg ⟨0, 0, 5, 5, 2/5⟩ ⟨1, 7, 12, 5, 4/5⟩] ∧
    (mergedSeg ⟨0, 0, 5, 5, 2/5⟩ ⟨1, 7, 12, 5, 4/5⟩).duration =
      5 + 5 + ((7:ℚ) - 5) :=
  have h := C6_merge_span ⟨0, 0, 5, 5, 2/5⟩ ⟨1, 7, 12, 5, 4/5⟩ 20
    (by norm_num) (by norm_num) (by norm_num) (by norm_num) (by norm_num)
    (by norm_num)
  ⟨h.1, h.2.2.1⟩

/-- C9, counterexample: when the cut stage fails (all cut tasks
failed, every earlier stage fine), `process_video` returns
`success: false` with an error message — but no `stage` key at all,
contradicting the claimed `{success:false, stage:"cut"}` shape. -/
theorem C9_counterexample :
    lookupR (process_video
      ⟨true, "", .ok, true, "", false, "original", true, false, false, 0, [], 0, 0⟩
      "in.mp4" "out.mp4") "success" = some (.b false) ∧
    lookupR (process_video
      ⟨true, "", .ok, true, "", false, "original", true, false, false, 0, [], 0, 0⟩
      "in.mp4" "out.mp4") "stage" = none ∧
    lookupR (process_video
      ⟨true, "", .ok, true, "", false, "original", true, false, false, 0, [], 0, 0⟩
      "in.mp4" "out.mp4") "error" = some (.s "视频剪辑失败") := by
  refine ⟨rfl, rfl, rfl⟩

/-- C9, amended: every result of `process_video` either is a success
carrying an output path, or is a structured failure with
`success: false`, an error message naming the failing stage in prose,
the input path, no output path — and no `stage` field (the
stage name is only part of the error message, not a separate key). -/
theorem C9_failure_shape (env : WfEnv) (vp op : String) :
    (lookupR (process_video env vp op) "success" = some (.b true) ∧
      lookupR (process_video env vp op) "output_path" = some (.s op)) ∨
    (lookupR (process_video env vp op) "success" = some (.b false) ∧
      (∃ e, lookupR (process_video env vp op) "error" = some (.s e)) ∧
      lookupR (process_video env vp op) "output_path" = none ∧
      lookupR (process_video env vp op) "input_path" = some (.s vp) ∧
      lookupR (process_video env vp op) "stage" = none) := by
  unfold process_video
  repeat' split
  all_goals
    first
      | exact Or.inl ⟨rfl, rfl⟩
      | exact Or.inr ⟨rfl, ⟨_, rfl⟩, rfl, rfl, rfl⟩

/-- The two output lists of the cut loop together account for every
dispatched segment. -/
theorem cutLoop_length (o : Nat → SegOutcome) :
    ∀ l : List (Nat × ℚ × ℚ),
      (cutLoop o l).1.length + (cutLoop o l).2.length = l.length := by
  intro l
  induction l with
  | nil => rfl
  | cons h t ih =>
    obtain ⟨i, s, e⟩ := h
    simp only [cutLoop]
    split <;> simp only [List.length_cons] <;> omega

/-- A segment whose cut succeeds lands among the successful original
indices, wherever it sits in the batch. -/
theorem cutLoop_success_mem (o : Nat → SegOutcome) :
    ∀ (l : List (Nat × ℚ × ℚ)) (i : Nat) (s e : ℚ), (i, s, e) ∈ l →
      (o i).isSuccess = true → i ∈ (cutLoop o l).2 := by
  intro l
  induction l with
  | nil => intro i s e h; cases h
  | cons hd t ih =>
    obtain ⟨j, js, je⟩ := hd
    intro i s e h hs
    rcases List.mem_cons.mp h with heq | hmem
    · cases heq
      simp [cutLoop, hs]
    · by_cases hj : (o j).isSuccess
      · simp only [cutLoop, if_pos hj]
        exact List.mem_cons_of_mem _ (ih i s e hmem hs)
      · simp only [cutLoop, if_neg hj]
        exact ih i s e hmem hs

/-- A segment whose cut fails or times out is recorded in
`failed_segments` with its error, and the loop continues: the failure
never aborts the remaining segments. -/
theorem cutLoop_failure_recorded (o : Nat → SegOutcome) :
    ∀ (l : List (Nat × ℚ × ℚ)) (i : Nat) (s e : ℚ), (i, s, e) ∈ l →
      (o i).isSuccess = false →
      ∃ f ∈ (cutLoop o l).1, f.index = i ∧ f.error = (o i).errorMsg := by
  intro l
  induction l with
  | nil => intro i s e h; cases h
  | cons hd t ih =>
    obtain ⟨j, js, je⟩ := hd
    intro i s e h hs
    rcases List.mem_cons.mp h with heq | hmem
    · cases heq
      refine ⟨⟨j, js, je, (o j).errorMsg⟩, ?_, rfl, rfl⟩
      simp [cutLoop, hs]
    · obtain ⟨f, hf, hfi, hfe⟩ := ih i s e hmem hs
      by_cases hj : (o j).isSuccess
      · simp only [cutLoop, if_pos hj]
        exact ⟨f, hf, hfi, hfe⟩
      · simp only [cutLoop, if_neg hj]
        exact ⟨f, List.mem_cons_of_mem _ hf, hfi, hfe⟩

/-- C3, counterexample: with two valid ranges whose segments both cut
successfully but whose final concat fails, `cut_video` returns
failure even though two segments were cut successfully — refuting the
claimed "fails iff zero segments are cut successfully". -/
theorem C3_counterexample :
    cut_video ⟨true, fun _ => .success, false, true, true⟩
      [((0:ℚ), (5:ℚ)), (10, 15)] = false ∧
    (cutLoop (fun _ => .success)
      ([((0:ℚ), (5:ℚ)), (10, 15)]).enum).2.length = 2 := by
  constructor
  · norm_num [cut_video, cutLoop, List.enum, List.enumFrom,
      SegOutcome.isSuccess]
  · norm_num [cutLoop, List.enum, List.enumFrom, SegOutcome.isSuccess]

/-- C3, amended: for every non-empty list of valid time ranges, given
a working encoder binary, `cut_video` fails iff zero segments are cut
successfully **or** the final move/concat/output-verification step
fails; the failure or timeout of a single segment is recorded in
`failed_segments` and never aborts the remaining segments — every
dispatched index ends up either among the successes or among the
recorded failures, and the two lists together have one entry per
segment. -/
theorem C3_cut_failure_amended (env : CutEnv) (segs : List (ℚ × ℚ))
    (hne : segs ≠ []) (hval : ∀ r ∈ segs, 0 ≤ r.1 ∧ r.1 < r.2)
    (hff : env.ffmpegOk = true) :
    (cut_video env segs = false ↔
      ((cutLoop env.seg segs.enum).2 = [] ∨
        ((cutLoop env.seg segs.enum).2.length = 1 ∧
          ¬(env.moveOk = true ∧ env.outputExists = true)) ∨
        (2 ≤ (cutLoop env.seg segs.enum).2.length ∧
          ¬(env.concatOk = true ∧ env.outputExists = true)))) ∧
    (cutLoop env.seg segs.enum).1.length +
      (cutLoop env.seg segs.enum).2.length = segs.length ∧
    (∀ i s e, (i, s, e) ∈ segs.enum → (env.seg i).isSuccess = true →
      i ∈ (cutLoop env.seg segs.enum).2) ∧
    (∀ i s e, (i, s, e) ∈ segs.enum → (env.seg i).isSuccess = false →
      ∃ f ∈ (cutLoop env.seg segs.enum).1,
        f.index = i ∧ f.error = (env.seg i).errorMsg) := by
  refine ⟨?_, (cutLoop_length env.seg segs.enum).trans (by simp),
    cutLoop_success_mem env.seg segs.enum,
    cutLoop_failure_recorded env.seg segs.enum⟩
  have hany : segs.any (fun r => decide (r.1 < 0) || decide (r.2 ≤ r.1)) = false := by
    rw [List.any_eq_false]
    intro r hr
    obtain ⟨h0, hlt⟩ := hval r hr
    simp only [Bool.or_eq_true, decide_eq_true_eq, not_or]
    exact ⟨not_lt.mpr h0, not_le.mpr hlt⟩
  unfold cut_video
  rw [if_neg (by simpa [List.isEmpty_iff] using hne), if_neg (by simp [hff]),
    if_neg (by simp [hany])]
  rcases hc : cutLoop env.seg segs.enum with ⟨F, S⟩
  simp only [hc]
  match S with
  | [] => simp
  | [a] =>
    cases hm : env.moveOk <;> cases ho : env.outputExists <;>
      simp [hm, ho]
  | a :: b :: t =>
    cases hm : env.concatOk <;> cases ho : env.outputExists <;>
      simp [hm, ho]

/-- C3, witness for the amended theorem: two valid ranges, everything
succeeding, accounted for by the loop's two output lists. -/
theorem C3_cut_failure_amended_witness :
    (([((0:ℚ), (5:ℚ)), (10, 15)] : List (ℚ × ℚ)) ≠ [] ∧
      (∀ r ∈ ([((0:ℚ), (5:ℚ)), (10, 15)] : List (ℚ × ℚ)), 0 ≤ r.1 ∧ r.1 < r.2) ∧
      (⟨true, fun _ => .success, true, true, true⟩ : CutEnv).ffmpegOk = true) ∧
    (cutLoop (fun _ => SegOutcome.success)
        ([((0:ℚ), (5:ℚ)), (10, 15)] : List (ℚ × ℚ)).enum).1.length +
      (cutLoop (fun _ => SegOutcome.success)
        ([((0:ℚ), (5:ℚ)), (10, 15)] : List (ℚ × ℚ)).enum).2.length = 2 := by
  refine ⟨⟨by simp, ?_, rfl⟩, ?_⟩
  · intro r hr
    fin_cases hr <;> norm_num
  · have h := C3_cut_failure_amended
      ⟨true, fun _ => .success, true, true, true⟩ [((0:ℚ), 5), (10, 15)]
      (by simp) (by intro r hr; fin_cases hr <;> norm_num) rfl
    simpa using h.2.1

/-! ### Score bounds (C1, C10) -/

theorem mean_nonneg {l : List ℚ} (h : ∀ x ∈ l, 0 ≤ x) : 0 ≤ mean l :=
  div_nonneg (List.sum_nonneg h) (Nat.cast_nonneg _)

theorem variance_nonneg (l : List ℚ) : 0 ≤ variance l := by
  refine div_nonneg (List.sum_nonneg ?_) (Nat.cast_nonneg _)
  intro x hx
  obtain ⟨y, _, rfl⟩ := List.mem_map.mp hx
  exact sq_nonneg _

theorem foldl_max_init_le : ∀ (t : List ℚ) (a : ℚ), a ≤ t.foldl max a := by
  intro t
  induction t with
  | nil => intro a; exact le_refl a
  | cons x xs ih => intro a; exact le_trans (le_max_left a x) (ih (max a x))

theorem maxD_nonneg {l : List ℚ} (h : ∀ x ∈ l, 0 ≤ x) : 0 ≤ maxD l := by
  cases l with
  | nil => exact le_refl 0
  | cons a t =>
    exact le_trans (h a (List.mem_cons_self a t)) (foldl_max_init_le t a)

theorem audio_score_core_bounds (energies : List ℚ)
    (h : ∀ x ∈ energies, 0 ≤ x) :
    0 ≤ audio_score_core energies ∧ audio_score_core energies ≤ 1 := by
  unfold audio_score_core
  split
  · norm_num
  · have h1 : 0 ≤ mean energies := mean_nonneg h
    have h2 : 0 ≤ variance energies := variance_nonneg energies
    have h3 : (0:ℚ) ≤ min ((countPairs
        (fun a b => decide ((1:ℚ)/10 < |b - a|)) energies : ℚ) / 10) 1 :=
      le_min (by positivity) (by norm_num)
    constructor
    · refine le_min ?_ (by norm_num)
      have := mul_nonneg h1 (by norm_num : (0:ℚ) ≤ 3/10)
      have := mul_nonneg (mul_nonneg h2 (by norm_num : (0:ℚ) ≤ 2))
        (by norm_num : (0:ℚ) ≤ 3/10)
      have := mul_nonneg h3 (by norm_num : (0:ℚ) ≤ 2/5)
      linarith
    · exact min_le_right _ _

theorem calculate_audio_score_bounds (sqrtA : ℚ → ℚ) (inp : AudioInput)
    (s e : ℚ) (hs : ∀ q, 0 ≤ q → 0 ≤ sqrtA q) :
    0 ≤ calculate_audio_score sqrtA inp s e ∧
      calculate_audio_score sqrtA inp s e ≤ 1 := by
  unfold calculate_audio_score
  cases inp with
  | unreadable m => simp [load_audio]
  | audio sr data =>
    simp only [load_audio]
    split
    · norm_num
    · split
      · norm_num
      · apply audio_score_core_bounds
        intro x hx
        obtain ⟨w, _, rfl⟩ := List.mem_map.mp hx
        refine hs _ (mean_nonneg ?_)
        intro y hy
        obtain ⟨z, _, rfl⟩ := List.mem_map.mp hy
        exact mul_self_nonneg z

theorem video_score_core_bounds (motions : List ℚ)
    (h : ∀ x ∈ motions, 0 ≤ x) :
    0 ≤ video_score_core motions ∧ video_score_core motions ≤ 1 := by
  unfold video_score_core
  split
  · norm_num
  · have h1 := mean_nonneg h
    have h2 := variance_nonneg motions
    have h3 := maxD_nonneg h
    have hnavg : (0:ℚ) ≤ min (mean motions * 5) 1 :=
      le_min (mul_nonneg h1 (by norm_num)) (by norm_num)
    have hnvar : (0:ℚ) ≤ min (variance motions * 20) 1 :=
      le_min (mul_nonneg h2 (by norm_num)) (by norm_num)
    have hnmax : (0:ℚ) ≤ min (maxD motions * 3) 1 :=
      le_min (mul_nonneg h3 (by norm_num)) (by norm_num)
    have hchg : (0:ℚ) ≤ min ((countPairs (fun a b =>
        decide (max ((1:ℚ)/100) (mean motions * (3/10)) < |b - a|))
        motions : ℚ) / max (motions.length : ℚ) 1 * 2) 1 := by
      refine le_min (mul_nonneg (div_nonneg (Nat.cast_nonneg _) ?_)
        (by norm_num)) (by norm_num)
      exact le_trans (by norm_num) (le_max_right _ 1)
    constructor
    · refine le_min ?_ (by norm_num)
      have e1 := mul_nonneg hnavg (by norm_num : (0:ℚ) ≤ 3/10)
      have e2 := mul_nonneg hnvar (by norm_num : (0:ℚ) ≤ 3/10)
      have e3 := mul_nonneg hnmax (by norm_num : (0:ℚ) ≤ 1/5)
      have e4 := mul_nonneg hchg (by norm_num : (0:ℚ) ≤ 1/5)
      linarith
    · exact min_le_right _ _

theorem ite_video_core_bounds (c : Prop) [Decidable c] (M : List ℚ)
    (hM : ∀ x ∈ M, 0 ≤ x) :
    0 ≤ (if c then (0:ℚ) else video_score_core M) ∧
      (if c then (0:ℚ) else video_score_core M) ≤ 1 := by
  split
  · norm_num
  · exact video_score_core_bounds M hM

theorem calculate_video_score_bounds (inp : VideoInput) (s e : ℚ) :
    0 ≤ calculate_video_score inp s e ∧
      calculate_video_score inp s e ≤ 1 := by
  cases inp with
  | unopenable =>
    constructor <;> norm_num [calculate_video_score]
  | video d =>
    exact ite_video_core_bounds _ _ (fun x hx => by
      obtain ⟨p, _, rfl⟩ := List.mem_map.mp hx
      refine div_nonneg (mean_nonneg ?_) (by norm_num)
      intro y hy
      obtain ⟨z, _, rfl⟩ := List.mem_map.mp hy
      exact abs_nonneg _)

/-- C1: with the default weights 0.4/0.4/0.2, for every valid window
`0 ≤ start ≤ end ≤ total`, the composite score of
`calculate_segment_score` lies in `[0, 1]`, and so do the audio and
video sub-scores (the square root of `numpy` is abstracted by any
nonnegativity-preserving `sqrtA`). -/
theorem C1_composite_score_bounds (sqrtA : ℚ → ℚ) (ainp : AudioInput)
    (vinp : VideoInput) (s e total : ℚ)
    (hsq : ∀ q, 0 ≤ q → 0 ≤ sqrtA q)
    (h0 : 0 ≤ s) (hse : s ≤ e) (het : e ≤ total) :
    (0 ≤ calculate_segment_score (2/5) (2/5) (1/5) sqrtA ainp vinp s e total ∧
      calculate_segment_score (2/5) (2/5) (1/5) sqrtA ainp vinp s e total ≤ 1) ∧
    (0 ≤ calculate_audio_score sqrtA ainp s e ∧
      calculate_audio_score sqrtA ainp s e ≤ 1) ∧
    (0 ≤ calculate_video_score vinp s e ∧
      calculate_video_score vinp s e ≤ 1) := by
  have ha := calculate_audio_score_bounds sqrtA ainp s e hsq
  have hv := calculate_video_score_bounds vinp s e
  refine ⟨?_, ha, hv⟩
  unfold calculate_segment_score
  have hts : 0 ≤ 1 - |(if 0 < total then (s + e) / 2 / total else 1/2) - 1/2| * 2 ∧
      1 - |(if 0 < total then (s + e) / 2 / total else 1/2) - 1/2| * 2 ≤ 1 := by
    split
    · rename_i ht
      have hnp0 : 0 ≤ (s + e) / 2 / total :=
        div_nonneg (by linarith) ht.le
      have hnp1 : (s + e) / 2 / total ≤ 1 := by
        rw [div_le_one ht]
        linarith
      have habs : |(s + e) / 2 / total - 1/2| ≤ 1/2 :=
        abs_le.mpr ⟨by linarith, by linarith⟩
      have := abs_nonneg ((s + e) / 2 / total - 1/2)
      constructor <;> linarith
    · norm_num
  constructor
  · refine le_min ?_ (by norm_num)
    have e1 := mul_nonneg ha.1 (by norm_num : (0:ℚ) ≤ 2/5)
    have e2 := mul_nonneg hv.1 (by norm_num : (0:ℚ) ≤ 2/5)
    have e3 := mul_nonneg hts.1 (by norm_num : (0:ℚ) ≤ 1/5)
    linarith
  · exact min_le_right _ _

/-- C1, witness at a concrete window of a concrete audio/video
input. -/
theorem C1_composite_score_bounds_witness :
    ((∀ q : ℚ, 0 ≤ q → 0 ≤ id q) ∧ (0:ℚ) ≤ 0 ∧ (0:ℚ) ≤ 1 ∧ (1:ℚ) ≤ 2) ∧
    0 ≤ calculate_segment_score (2/5) (2/5) (1/5) id
      (.audio 2 [1, 1]) .unopenable 0 1 2 :=
  ⟨⟨fun _ h => h, le_refl 0, by norm_num, by norm_num⟩,
    (C1_composite_score_bounds id (.audio 2 [1, 1]) .unopenable 0 1 2
      (fun _ h => h) (le_refl 0) (by norm_num) (by norm_num)).1.1⟩

/-- Truncation to sample/frame indices is monotone. -/
theorem ratIdx_mono {a b : ℚ} (h : a ≤ b) : ratIdx a ≤ ratIdx b :=
  Int.toNat_le_toNat (Int.floor_le_floor h)

/-- C10: the analyzers never raise — every decode or analysis error
returns the neutral score 0.0: an unreadable audio file, an empty
audio window (`end_time ≤ start_time`), an unopenable video, a
degenerate video frame range, and a frame-count-0 video all score
0.0. -/
theorem C10_analyzers_error_neutral :
    (∀ (sqrtA : ℚ → ℚ) (msg : String) (s e : ℚ),
      calculate_audio_score sqrtA (.unreadable msg) s e = 0) ∧
    (∀ (sqrtA : ℚ → ℚ) (sr : Nat) (data : List ℚ) (s e : ℚ), e ≤ s →
      calculate_audio_score sqrtA (.audio sr data) s e = 0) ∧
    (∀ s e : ℚ, calculate_video_score .unopenable s e = 0) ∧
    (∀ (d : VideoData) (s e : ℚ), e ≤ s →
      calculate_video_score (.video d) s e = 0) ∧
    (∀ (d : VideoData) (s e : ℚ), d.totalFrames = 0 →
      calculate_video_score (.video d) s e = 0) := by
  refine ⟨fun _ _ _ _ => rfl, ?_, fun _ _ => rfl, ?_, ?_⟩
  · intro sqrtA sr data s e hes
    unfold calculate_audio_score
    simp only [load_audio]
    have hmono : ratIdx (e * sr) ≤ ratIdx (s * sr) :=
      ratIdx_mono (mul_le_mul_of_nonneg_right hes (Nat.cast_nonneg sr))
    have hz : ratIdx (e * sr) - ratIdx (s * sr) = 0 :=
      Nat.sub_eq_zero_of_le hmono
    rw [hz]
    simp
  · intro d s e hes
    unfold calculate_video_score
    have hfps : 0 ≤ (if d.fps ≤ 0 then 25 else d.fps) := by
      split
      · norm_num
      · linarith [not_le.mp ‹¬ d.fps ≤ 0›]
    have hmono : ratIdx (e * (if d.fps ≤ 0 then 25 else d.fps)) ≤
        ratIdx (s * (if d.fps ≤ 0 then 25 else d.fps)) :=
      ratIdx_mono (mul_le_mul_of_nonneg_right hes hfps)
    have hend : (if 0 < d.totalFrames then
        min (ratIdx (e * (if d.fps ≤ 0 then 25 else d.fps))) (d.totalFrames - 1)
        else ratIdx (e * (if d.fps ≤ 0 then 25 else d.fps))) ≤
        ratIdx (s * (if d.fps ≤ 0 then 25 else d.fps)) := by
      split
      · exact le_trans (min_le_left _ _) hmono
      · exact hmono
    simp only []
    rw [if_pos hend]
  · intro d s e h0
    unfold calculate_video_score
    simp only [h0]
    split <;> simp [video_score_core]

/-- C10, witness at a degenerate window `[3, 2)` of concrete audio
and video inputs. -/
theorem C10_analyzers_error_neutral_witness :
    ((2:ℚ) ≤ 3) ∧
    calculate_audio_score id (.audio 4 [1, 2]) 3 2 = 0 ∧
    calculate_video_score (.video ⟨30, 10, fun _ => [1]⟩) 3 2 = 0 :=
  ⟨by norm_num,
    C10_analyzers_error_neutral.2.1 id 4 [1, 2] 3 2 (by norm_num),
    C10_analyzers_error_neutral.2.2.2.1 ⟨30, 10, fun _ => [1]⟩ 3 2 (by norm_num)⟩

/-! ### analyze_video partition (C4) -/

/-- C4: for every duration `D > 0` and window `W > 0`,
`analyze_video` produces exactly `⌈D/W⌉` segments; the pre-sort
partition has window `i` equal to
`[i·W, min((i+1)·W, D))` (index retained, duration consistent), every
non-last window's end coincides with the next window's start (and its
width is exactly `W`, since `min((i+1)·W, D) = (i+1)·W` there), the
last window ends exactly at `D` with width in `(0, W]`, and the
returned list is the partition sorted by score descending (a
permutation retaining all windows). -/
theorem C4_analyze_video_partition (D W : ℚ) (score : ℚ → ℚ → ℚ)
    (hD : 0 < D) (hW : 0 < W) :
    (analyze_video D W score).length = (⌈D / W⌉).toNat ∧
    1 ≤ (⌈D / W⌉).toNat ∧
    (analyze_video D W score).Perm (analyze_segments D W score) ∧
    (∀ (i : Nat) (h1 : i < (analyze_segments D W score).length),
      (analyze_segments D W score).get ⟨i, h1⟩ =
        { index := i, start_time := (i : ℚ) * W,
          end_time := min ((i + 1 : ℚ) * W) D,
          duration := min ((i + 1 : ℚ) * W) D - (i : ℚ) * W,
          score := score ((i : ℚ) * W) (min ((i + 1 : ℚ) * W) D) }) ∧
    (∀ i : Nat, i + 1 < (⌈D / W⌉).toNat →
      min ((i + 1 : ℚ) * W) D = (i + 1 : ℚ) * W) ∧
    min (((⌈D / W⌉).toNat : ℚ) * W) D = D ∧
    (0 < D - (((⌈D / W⌉).toNat : ℚ) - 1) * W ∧
      D - (((⌈D / W⌉).toNat : ℚ) - 1) * W ≤ W) ∧
    (analyze_video D W score).Sorted scoreGE := by
  have hx : 0 < D / W := div_pos hD hW
  have hcpos : 0 < ⌈D / W⌉ := Int.ceil_pos.mpr hx
  have hcast : (((⌈D / W⌉).toNat : ℤ)) = ⌈D / W⌉ := Int.toNat_of_nonneg hcpos.le
  have hnQ : (((⌈D / W⌉).toNat : ℚ)) = ((⌈D / W⌉ : ℤ) : ℚ) := by
    exact_mod_cast congrArg (fun z : ℤ => (z : ℚ)) hcast
  have hub : D ≤ (((⌈D / W⌉).toNat : ℚ)) * W := by
    have h1 : D / W ≤ ((⌈D / W⌉ : ℤ) : ℚ) := Int.le_ceil _
    rw [hnQ]
    exact (div_le_iff₀ hW).mp h1
  have hlb : ((((⌈D / W⌉).toNat : ℚ)) - 1) * W < D := by
    have h2 : ((⌈D / W⌉ : ℤ) : ℚ) < D / W + 1 := Int.ceil_lt_add_one _
    have h3 : (((⌈D / W⌉).toNat : ℚ)) - 1 < D / W := by
      rw [hnQ]
      linarith
    calc ((((⌈D / W⌉).toNat : ℚ)) - 1) * W < (D / W) * W :=
          mul_lt_mul_of_pos_right h3 hW
      _ = D := div_mul_cancel₀ D hW.ne'
  have hn1 : 1 ≤ (⌈D / W⌉).toNat := by omega
  refine ⟨?_, hn1, List.perm_insertionSort scoreGE _, ?_, ?_, min_eq_right hub,
    ⟨by linarith, ?_⟩, List.sorted_insertionSort scoreGE _⟩
  · unfold analyze_video sortByScoreDesc
    rw [(List.perm_insertionSort scoreGE _).length_eq]
    simp [analyze_segments]
  · intro i h1
    simp [analyze_segments, List.get_eq_getElem]
  · intro i hi
    refine min_eq_left ?_
    have hle : (i : ℚ) + 1 ≤ (((⌈D / W⌉).toNat : ℚ)) - 1 := by
      have : (i : ℚ) + 2 ≤ (((⌈D / W⌉).toNat : ℚ)) := by exact_mod_cast hi
      linarith
    calc ((i : ℚ) + 1) * W ≤ ((((⌈D / W⌉).toNat : ℚ)) - 1) * W :=
          mul_le_mul_of_nonneg_right hle hW.le
      _ ≤ D := hlb.le
  · have hexp : ((((⌈D / W⌉).toNat : ℚ)) - 1) * W =
        (((⌈D / W⌉).toNat : ℚ)) * W - W := by ring
    linarith [hexp ▸ hlb]

/-- C4, witness at `D = 25`, `W = 10` (three windows). -/
theorem C4_analyze_video_partition_witness :
    ((0:ℚ) < 25 ∧ (0:ℚ) < 10) ∧
    (analyze_video 25 10 (fun _ _ => 0)).length = (⌈(25:ℚ) / 10⌉).toNat :=
  ⟨⟨by norm_num, by norm_num⟩,
    (C4_analyze_video_partition 25 10 (fun _ _ => 0)
      (by norm_num) (by norm_num)).1⟩

/-! ### Greedy selection (C8, C5) -/

/-- The running total of the first greedy pass is the initial total
plus the accepted segments' durations. -/
theorem firstPass_sum (maxT minT : ℚ) :
    ∀ (l : List Segment) (cur : ℚ),
      (firstPass maxT minT l cur).2 =
        cur + totalDur (firstPass maxT minT l cur).1 := by
  intro l
  induction l with
  | nil => intro cur; simp [firstPass, totalDur]
  | cons s rest ih =>
    intro cur
    simp only [firstPass]
    split
    · split
      · simp [totalDur]
      · simp only [totalDur, List.map_cons, List.sum_cons]
        rw [ih (cur + s.duration)]
        simp [totalDur]
        ring
    · split
      · simp [totalDur]
      · exact ih cur

/-- The first greedy pass never lets the running total pass `maxT`:
a candidate is accepted only when it still fits. -/
theorem firstPass_le_max (maxT minT : ℚ) :
    ∀ (l : List Segment) (cur : ℚ), cur ≤ maxT →
      (firstPass maxT minT l cur).2 ≤ maxT := by
  intro l
  induction l with
  | nil => intro cur h; exact h
  | cons s rest ih =>
    intro cur h
    simp only [firstPass]
    split
    · split
      · assumption
      · exact ih (cur + s.duration) ‹_›
    · split
      · exact h
      · exact ih cur h

/-- The first greedy pass stops as soon as the total reaches `minT`:
after every accepted candidate except the last, the running total is
still strictly below `minT`. -/
theorem firstPass_take_lt (maxT minT : ℚ) :
    ∀ (l : List Segment) (cur : ℚ) (j : Nat), 1 ≤ j →
      j < (firstPass maxT minT l cur).1.length →
      cur + totalDur ((firstPass maxT minT l cur).1.take j) < minT := by
  intro l
  induction l with
  | nil => intro cur j h1 h2; simp [firstPass] at h2
  | cons s rest ih =>
    intro cur j h1 h2
    by_cases hacc : cur + s.duration ≤ maxT
    · by_cases hbrk : minT ≤ cur + s.duration
      · simp only [firstPass, if_pos hacc, if_pos hbrk] at h2
        simp only [List.length_singleton] at h2
        omega
      · simp only [firstPass, if_pos hacc, if_neg hbrk] at h2 ⊢
        simp only [List.length_cons] at h2
        match j, h1 with
        | 1, _ =>
          simp only [List.take_succ_cons, List.take_zero, totalDur,
            List.map_cons, List.map_nil, List.sum_cons, List.sum_nil]
          push_neg at hbrk
          linarith
        | j' + 2, _ =>
          have hih := ih (cur + s.duration) (j' + 1) (by omega) (by omega)
          simp only [List.take_succ_cons, totalDur, List.map_cons,
            List.sum_cons] at hih ⊢
          linarith
    · by_cases hbrk : minT ≤ cur
      · simp only [firstPass, if_neg hacc, if_pos hbrk] at h2
        simp at h2
      · simp only [firstPass, if_neg hacc, if_neg hbrk] at h2 ⊢
        exact ih cur j h1 h2

/-- C8: with target `T ≥ 0`, the first greedy pass's accepted total
never exceeds `1.2·T` and every proper prefix of the accepted list
(in acceptance order) totals strictly below `0.8·T` (the pass breaks
as soon as the total reaches `0.8·T`); and whenever the first pass
already reaches `0.8·T`, `select_highlights` returns exactly the
first pass's selection sorted by start time — the second pass and the
merge step run only below `0.8·T`. -/
theorem C8_greedy_selection_bounds (l segs : List Segment) (T m : ℚ)
    (hT : 0 ≤ T) :
    (firstPass (T * (6/5)) (T * (4/5)) l 0).2 =
      totalDur (firstPass (T * (6/5)) (T * (4/5)) l 0).1 ∧
    (firstPass (T * (6/5)) (T * (4/5)) l 0).2 ≤ T * (6/5) ∧
    (∀ j, 1 ≤ j → j < (firstPass (T * (6/5)) (T * (4/5)) l 0).1.length →
      totalDur ((firstPass (T * (6/5)) (T * (4/5)) l 0).1.take j) < T * (4/5)) ∧
    (T * (4/5) ≤ (firstPass (T * (6/5)) (T * (4/5))
        (sortByScoreDesc (validSegments segs m)) 0).2 →
      select_highlights segs T m =
        sortByStart (firstPass (T * (6/5)) (T * (4/5))
          (sortByScoreDesc (validSegments segs m)) 0).1) := by
  refine ⟨by simpa using firstPass_sum (T * (6/5)) (T * (4/5)) l 0,
    firstPass_le_max _ _ l 0 (by linarith), ?_, ?_⟩
  · intro j h1 h2
    simpa using firstPass_take_lt (T * (6/5)) (T * (4/5)) l 0 j h1 h2
  · intro hge
    unfold select_highlights
    split
    · rename_i hemp
      have : segs = [] := by simpa [List.isEmpty_iff] using hemp
      subst this
      simp [validSegments, sortByScoreDesc, List.insertionSort, firstPass,
        sortByStart]
    · simp only [if_neg (not_lt.mpr hge)]
      rw [if_neg]
      intro hcon
      exact absurd hge (not_le.mpr hcon.1)

/-- C8, witness at a one-candidate list and target 10. -/
theorem C8_greedy_selection_bounds_witness :
    ((0:ℚ) ≤ 10) ∧
    (firstPass ((10:ℚ) * (6/5)) ((10:ℚ) * (4/5))
      [⟨0, 0, 9, 9, 1⟩] 0).2 ≤ (10:ℚ) * (6/5) :=
  ⟨by norm_num,
    (C8_greedy_selection_bounds [⟨0, 0, 9, 9, 1⟩] [] 10 5 (by norm_num)).2.1⟩

/-- Permutations preserve the total duration. -/
theorem totalDur_perm {l m : List Segment} (p : l.Perm m) :
    totalDur l = totalDur m :=
  (p.map Segment.duration).sum_eq

/-- With nonnegative durations, any initial part of a list totals at
most the whole list. -/
theorem totalDur_take_le {l : List Segment}
    (h : ∀ s ∈ l, 0 ≤ s.duration) (j : Nat) :
    totalDur (l.take j) ≤ totalDur l := by
  conv_rhs => rw [← List.take_append_drop j l]
  unfold totalDur
  rw [List.map_append, List.sum_append]
  have : 0 ≤ (List.map Segment.duration (l.drop j)).sum := by
    apply List.sum_nonneg
    intro x hx
    obtain ⟨s, hs, rfl⟩ := List.mem_map.mp hx
    exact h s (List.mem_of_mem_drop hs)
  linarith

/-- One-step unfolding of the first pass when the head is accepted
and the break threshold is not yet reached. -/
theorem firstPass_cons_continue (maxT minT : ℚ) (s : Segment)
    (l : List Segment) (cur : ℚ) (hacc : cur + s.duration ≤ maxT)
    (hbrk : ¬ minT ≤ cur + s.duration) :
    firstPass maxT minT (s :: l) cur =
      (s :: (firstPass maxT minT l (cur + s.duration)).1,
        (firstPass maxT minT l (cur + s.duration)).2) := by
  simp only [firstPass, if_pos hacc, if_neg hbrk]

/-- When every prefix of the candidate list fits under `maxT` and
every proper prefix stays below `minT`, the first greedy pass accepts
the whole list. -/
theorem firstPass_all (maxT minT : ℚ) :
    ∀ (l : List Segment) (cur : ℚ),
      (∀ j, j < l.length → cur + totalDur (l.take (j + 1)) ≤ maxT) →
      (∀ j, j + 1 < l.length → cur + totalDur (l.take (j + 1)) < minT) →
      firstPass maxT minT l cur = (l, cur + totalDur l) := by
  intro l
  induction l with
  | nil => intro cur _ _; simp [firstPass, totalDur]
  | cons s rest ih =>
    intro cur hmax hmin
    have hacc : cur + s.duration ≤ maxT := by
      have := hmax 0 (by simp)
      simpa [totalDur] using this
    cases rest with
    | nil =>
      simp only [firstPass, if_pos hacc]
      split <;> simp [firstPass, totalDur]
    | cons s2 rest2 =>
      have hbrk : ¬ minT ≤ cur + s.duration := by
        have := hmin 0 (by simp)
        simp only [List.take_succ_cons, List.take_zero, totalDur,
          List.map_cons, List.map_nil, List.sum_cons, List.sum_nil,
          add_zero] at this
        exact not_le.mpr this
      have hc1 : ∀ j, j < (s2 :: rest2).length →
          (cur + s.duration) + totalDur ((s2 :: rest2).take (j + 1)) ≤ maxT := by
        intro j hj
        have := hmax (j + 1) (by simpa using Nat.succ_lt_succ hj)
        simp only [List.take_succ_cons, totalDur, List.map_cons,
          List.sum_cons] at this ⊢
        linarith
      have hc2 : ∀ j, j + 1 < (s2 :: rest2).length →
          (cur + s.duration) + totalDur ((s2 :: rest2).take (j + 1)) < minT := by
        intro j hj
        have := hmin (j + 1) (by simpa using Nat.succ_lt_succ hj)
        simp only [List.take_succ_cons, totalDur, List.map_cons,
          List.sum_cons] at this ⊢
        linarith
      rw [firstPass_cons_continue maxT minT s (s2 :: rest2) cur hacc hbrk,
        ih (cur + s.duration) hc1 hc2]
      refine Prod.ext rfl ?_
      simp only [totalDur, List.map_cons, List.sum_cons]
      ring

/-- A start-sorted list and a strictly start-sorted list that are
permutations of each other are equal: sorting a permutation of a
strictly start-sorted selection by start time recovers it exactly. -/
theorem sorted_perm_strict_eq :
    ∀ {l mlist : List Segment}, l.Perm mlist → l.Pairwise startLE →
      mlist.Pairwise (fun a b => a.start_time < b.start_time) →
      l = mlist := by
  intro l
  induction l with
  | nil =>
    intro mlist p _ _
    exact (p.symm.eq_nil).symm
  | cons a l' ih =>
    intro mlist p hl hm
    cases mlist with
    | nil => exact p.eq_nil
    | cons b m' =>
      have hab : a = b := by
        have haIn : a ∈ b :: m' := p.subset (List.mem_cons_self a l')
        rcases List.mem_cons.mp haIn with h | h
        · exact h
        · have hba : b.start_time < a.start_time :=
            (List.pairwise_cons.mp hm).1 a h
          have hbIn : b ∈ a :: l' := p.symm.subset (List.mem_cons_self b m')
          rcases List.mem_cons.mp hbIn with h2 | h2
          · rw [h2] at hba
            exact absurd hba (lt_irrefl _)
          · have hab2 : a.start_time ≤ b.start_time :=
              (List.pairwise_cons.mp hl).1 b h2
            exact absurd hba (not_lt.mpr hab2)
      subst hab
      rw [ih p.cons_inv (List.pairwise_cons.mp hl).2
        (List.pairwise_cons.mp hm).2]

/-- C5, counterexample: two candidate segments with equal scores —
the short one (`[100,105)`, 5 s) ahead of the long one (`[0,16)`,
16 s) in the stable score order.  The first run selects both (total
21 ∈ [16, 24] for target 20), but re-running on that selection visits
the 16 s segment first, reaches `0.8 × 20` immediately, and returns
only it: `select_highlights` is not idempotent on in-range output. -/
theorem C5_counterexample :
    select_highlights [⟨0, 100, 105, 5, 9/10⟩, ⟨1, 0, 16, 16, 9/10⟩] 20 5 =
      [⟨1, 0, 16, 16, 9/10⟩, ⟨0, 100, 105, 5, 9/10⟩] ∧
    (20:ℚ) * (4/5) ≤
      totalDur [⟨1, 0, 16, 16, 9/10⟩, ⟨0, 100, 105, 5, 9/10⟩] ∧
    totalDur [⟨1, 0, 16, 16, 9/10⟩, ⟨0, 100, 105, 5, 9/10⟩] ≤
      (20:ℚ) * (6/5) ∧
    select_highlights [⟨1, 0, 16, 16, 9/10⟩, ⟨0, 100, 105, 5, 9/10⟩] 20 5 =
      [⟨1, 0, 16, 16, 9/10⟩] ∧
    ([⟨1, 0, 16, 16, 9/10⟩] : List Segment) ≠
      [⟨1, 0, 16, 16, 9/10⟩, ⟨0, 100, 105, 5, 9/10⟩] := by
  refine ⟨?_, by norm_num [totalDur], by norm_num [totalDur], ?_, by simp⟩
  · norm_num [select_highlights, validSegments, sortByScoreDesc, scoreGE,
      List.insertionSort, List.orderedInsert, firstPass, secondPass, totalDur,
      sortByStart, startLE, merge_adjacent_segments, mergeLoop, mergeInner,
      List.filter]
  · norm_num [select_highlights, validSegments, sortByScoreDesc, scoreGE,
      List.insertionSort, List.orderedInsert, firstPass, secondPass, totalDur,
      sortByStart, startLE, merge_adjacent_segments, mergeLoop, mergeInner,
      List.filter]

/-- C5, amended: `select_highlights` is idempotent on its first-pass
outputs: for a selection `S` sorted by strictly increasing start
times, with every duration at least the minimum `m ≥ 0`, total
duration within `[0.8·T, 1.2·T]`, and — as holds for every output of
the first greedy pass — every proper prefix of `S` in score-descending
order totalling strictly below `0.8·T`, re-running
`select_highlights` with the same target and minimum returns `S`
unchanged.  (Without the proper-prefix condition idempotence fails,
per the counterexample.) -/
theorem C5_select_idempotent_amended (S : List Segment) (T m : ℚ)
    (hm : 0 ≤ m)
    (hstart : S.Pairwise (fun a b => a.start_time < b.start_time))
    (hdur : ∀ s ∈ S, m ≤ s.duration)
    (hlo : T * (4/5) ≤ totalDur S)
    (hhi : totalDur S ≤ T * (6/5))
    (hpre : ∀ j, j + 1 < (sortByScoreDesc S).length →
      totalDur ((sortByScoreDesc S).take (j + 1)) < T * (4/5)) :
    select_highlights S T m = S := by
  by_cases hSnil : S = []
  · subst hSnil
    simp [select_highlights]
  · have hQperm : (sortByScoreDesc S).Perm S := List.perm_insertionSort scoreGE S
    have hQtot : totalDur (sortByScoreDesc S) = totalDur S := totalDur_perm hQperm
    have hQdur : ∀ s ∈ sortByScoreDesc S, 0 ≤ s.duration := fun s hs =>
      le_trans hm (hdur s (hQperm.subset hs))
    have hvalid : validSegments S m = S := by
      unfold validSegments
      have hfi : S.filter (fun s => decide (m ≤ s.duration)) = S :=
        List.filter_eq_self.mpr (fun a ha => decide_eq_true (hdur a ha))
      rw [hfi, if_neg (by simpa [List.isEmpty_iff] using hSnil)]
    have hfp : firstPass (T * (6/5)) (T * (4/5)) (sortByScoreDesc S) 0 =
        (sortByScoreDesc S, 0 + totalDur (sortByScoreDesc S)) := by
      apply firstPass_all
      · intro j hj
        have h1 := totalDur_take_le hQdur (j + 1)
        rw [zero_add]
        linarith [hQtot ▸ hhi]
      · intro j hj
        rw [zero_add]
        exact hpre j hj
    have htotQ : T * (4/5) ≤ 0 + totalDur (sortByScoreDesc S) := by
      rw [zero_add, hQtot]
      exact hlo
    unfold select_highlights
    rw [if_neg (by simpa [List.isEmpty_iff] using hSnil), hvalid]
    simp only [hfp]
    rw [if_neg (not_lt.mpr htotQ)]
    rw [if_neg (fun hcon => absurd htotQ (not_le.mpr hcon.1))]
    exact sorted_perm_strict_eq
      ((List.perm_insertionSort startLE _).trans hQperm)
      (List.sorted_insertionSort startLE _) hstart

/-- C5, witness for the amended theorem at a single in-range
segment. -/
theorem C5_select_idempotent_amended_witness :
    ((0:ℚ) ≤ 5 ∧
      ([⟨0, 0, 10, 10, 9/10⟩] : List Segment).Pairwise
        (fun a b => a.start_time < b.start_time) ∧
      (∀ s ∈ ([⟨0, 0, 10, 10, 9/10⟩] : List Segment), (5:ℚ) ≤ s.duration) ∧
      (10:ℚ) * (4/5) ≤ totalDur [⟨0, 0, 10, 10, 9/10⟩] ∧
      totalDur [⟨0, 0, 10, 10, 9/10⟩] ≤ (10:ℚ) * (6/5)) ∧
    select_highlights [⟨0, 0, 10, 10, 9/10⟩] 10 5 = [⟨0, 0, 10, 10, 9/10⟩] :=
  ⟨⟨by norm_num, by simp, by
      intro s hs
      rw [List.mem_singleton.mp hs]
      norm_num,
    by norm_num [totalDur], by norm_num [totalDur]⟩,
    C5_select_idempotent_amended [⟨0, 0, 10, 10, 9/10⟩] 10 5 (by norm_num)
      (by simp)
      (by intro s hs; rw [List.mem_singleton.mp hs]; norm_num)
      (by norm_num [totalDur]) (by norm_num [totalDur])
      (by
        intro j hj
        simp [sortByScoreDesc, List.insertionSort, List.orderedInsert] at hj)⟩

end SmartCut
